import Mathlib

/-!
# Verification of the htsengine synthesis core

A shallow embedding, in Lean 4, of the parts of the `htsengine` Rust
crate that the specification talks about: the wildcard pattern matcher
and decision-tree walk (`src/model/stream.rs`), the model store and
parameter lookup (`Model::get_index` / `Model::get_parameter`), the
parameter mixer (`ModelParameter::add_assign`), the tree converter of
the parser (`src/model/parser/convert.rs`), the option parsing of
`Condition::load_model` (`src/engine.rs`), the frame loop of
`SpeechGenerator::synthesize` (`src/speech.rs`), and the pitch-period
computation of `Vocoder::synthesize` (`src/vocoder/mod.rs`).

Modelling conventions:
* `f64` values are modelled as `ℚ` where only field operations occur and
  as `ℝ` where the code calls `exp` / `ln`.
* A Rust panic (`panic!`, `todo!`, out-of-bounds indexing, `unwrap`) is
  modelled by `Option`/`Res` failure values.
* The `regex` crate is modelled by a small glob-token semantics that is
  faithful for the regex strings the code actually builds, namely
  sequences of literal characters, escaped `+` `^` `|`, `.` (any
  character, produced both by `?` and by a literal `.` that the code
  leaves unescaped) and `.*` (produced by `*`).
-/

namespace Hts

/-! ## Pattern matcher (src/model/stream.rs, `Pattern`) -/

/-- One token of the anchored regex built by `Pattern::from_pattern_string`:
a literal character, `.` (any single character), or `.*` (any string). -/
inductive GlobToken where
  | lit (c : Char)
  | anyChar
  | anyStr
deriving DecidableEq

/-- The token sequence of the regex that `from_pattern_string` builds:
`+`, `^`, `|` are escaped (hence literal), `*` becomes `.*`, `?` becomes
`.`; a `.` already present in the pattern is left unescaped and therefore
also means "any single character". Other characters are literal. -/
def globTokens (p : List Char) : List GlobToken :=
  p.map fun c =>
    if c = '*' then .anyStr
    else if c = '?' then .anyChar
    else if c = '.' then .anyChar
    else .lit c

/-- Anchored (full-string) matching of a glob-token sequence. `.*`
consumes an arbitrary prefix, i.e. the rest of the tokens must match
some suffix of the remaining input. -/
def globMatch : List GlobToken → List Char → Bool
  | [], l => l.isEmpty
  | .lit c :: ts, l =>
    match l with
    | [] => false
    | x :: xs => c = x && globMatch ts xs
  | .anyChar :: ts, l =>
    match l with
    | [] => false
    | _ :: xs => globMatch ts xs
  | .anyStr :: ts, l => l.tails.any fun s => globMatch ts s

/-- Substring test, the model of Rust `str::contains`. -/
def listContains (hay needle : List Char) : Bool :=
  hay.tails.any fun t => needle.isPrefixOf t

/-- Compiled pattern: `All` (`"*"`), `Contains` (`*s*` with no inner
wildcard), or the anchored regex (src/model/stream.rs, `Pattern`). -/
inductive Pattern where
  | all
  | contains (s : List Char)
  | regex (toks : List GlobToken)
deriving DecidableEq

/-- `Pattern::from_pattern_string` (src/model/stream.rs). -/
def fromPatternString (p : List Char) : Pattern :=
  if p = ['*'] then .all
  else if p.head? == some '*' && p.getLast? == some '*'
       && ((p.drop 1).dropLast.all fun c => !(c == '*' || c == '?')) then
    .contains ((p.drop 1).dropLast)
  else .regex (globTokens p)

/-- `Pattern::is_match` (src/model/stream.rs). -/
def Pattern.isMatch : Pattern → List Char → Bool
  | .all, _ => true
  | .contains s, label => listContains label s
  | .regex ts, label => globMatch ts label

/-- Characters on which the glob/regex translation is purely literal:
not a wildcard, and not a regex metacharacter that the code leaves
unescaped (it escapes only `+`, `^`, `|`). -/
def literalChar (c : Char) : Bool :=
  !(c ∈ ['*', '?', '.', '$', '(', ')', '[', ']', '\x7b', '\x7d', '\\'])

theorem globMatch_lit_cons (c : Char) (ts : List GlobToken) (x : Char) (xs : List Char) :
    globMatch (.lit c :: ts) (x :: xs) = (decide (c = x) && globMatch ts xs) := by
  rfl

theorem globMatch_all_lits (p : List Char) :
    ∀ l : List Char, globMatch (p.map GlobToken.lit) l = true ↔ l = p := by
  induction p with
  | nil =>
    intro l
    cases l <;> simp [globMatch]
  | cons c cs ih =>
    intro l
    cases l with
    | nil => simp [globMatch]
    | cons x xs =>
      rw [List.map_cons, globMatch_lit_cons]
      simp only [Bool.and_eq_true, decide_eq_true_eq, List.cons.injEq]
      constructor
      · rintro ⟨h1, h2⟩
        exact ⟨h1.symm, (ih xs).mp h2⟩
      · rintro ⟨h1, h2⟩
        exact ⟨h1.symm, (ih xs).mpr h2⟩

theorem globTokens_of_literal (p : List Char) (hp : ∀ c ∈ p, literalChar c = true) :
    globTokens p = p.map GlobToken.lit := by
  unfold globTokens
  apply List.map_congr_left
  intro c hc
  have := hp c hc
  simp only [literalChar, List.mem_cons, Bool.not_eq_true', decide_eq_false_iff_not] at this
  have h1 : ¬ c = '*' := by intro h; exact this (by simp [h])
  have h2 : ¬ c = '?' := by intro h; exact this (by simp [h])
  have h3 : ¬ c = '.' := by intro h; exact this (by simp [h])
  simp [h1, h2, h3]

/-- C2 counterexample: the pattern `a.b` contains no `*` and no `?`, yet
it matches the label `axb`, which is not equal to it: the `.` survives
into the compiled regex as an any-character metacharacter. -/
theorem c2_dot_pattern_matches_unequal_label :
    (fromPatternString ['a', '.', 'b']).isMatch ['a', 'x', 'b'] = true ∧
      ['a', 'x', 'b'] ≠ ['a', '.', 'b'] := by
  constructor
  · rfl
  · decide

/-- C2 (amended): the compiled pattern `"*"` matches every label, and a
pattern made only of literal characters (no `*` or `?` wildcard and no
regex metacharacter that `from_pattern_string` leaves unescaped, such as
`.`) matches a label iff the label equals the pattern character for
character. -/
theorem c2_pattern_equivalences :
    (∀ label : List Char, (fromPatternString ['*']).isMatch label = true) ∧
      (∀ p label : List Char, (∀ c ∈ p, literalChar c = true) →
        ((fromPatternString p).isMatch label = true ↔ label = p)) := by
  constructor
  · intro label
    rfl
  · intro p label hp
    have hstar : ¬ p = ['*'] := by
      intro h
      subst h
      have := hp '*' (by simp)
      simp [literalChar] at this
    have hcont : ¬ (p.head? == some '*' && p.getLast? == some '*'
        && ((p.drop 1).dropLast.all fun c => !(c == '*' || c == '?'))) = true := by
      intro h
      simp only [Bool.and_eq_true, beq_iff_eq] at h
      obtain ⟨⟨hh, _⟩, _⟩ := h
      cases p with
      | nil => simp at hh
      | cons c cs =>
        simp only [List.head?_cons, Option.some.injEq] at hh
        have := hp c (by simp)
        rw [hh] at this
        simp [literalChar] at this
    rw [fromPatternString, if_neg hstar, if_neg hcont]
    rw [Pattern.isMatch, globTokens_of_literal p hp]
    exact globMatch_all_lits p label

/-- C2 witness: the all-literal pattern `abc` matches exactly itself. -/
theorem c2_pattern_equivalences_witness :
    (∀ c ∈ ['a', 'b', 'c'], literalChar c = true) ∧
      ((fromPatternString ['a', 'b', 'c']).isMatch ['a', 'b', 'c'] = true) := by
  refine ⟨by decide, ?_⟩
  exact (c2_pattern_equivalences.2 ['a', 'b', 'c'] ['a', 'b', 'c'] (by decide)).mpr rfl

/-! ## Decision trees and the model store (src/model/stream.rs) -/

/-- A tree node: branch with gating patterns and yes/no indices, or a
leaf carrying a pdf index (src/model/stream.rs, `TreeNode`). -/
inductive TreeNode where
  | node (patterns : List Pattern) (yes no : ℕ)
  | leaf (pdfIndex : ℕ)
deriving DecidableEq

/-- A decision tree (src/model/stream.rs, `Tree`). -/
structure Tree where
  state : ℕ
  patterns : List Pattern
  nodes : List TreeNode
deriving DecidableEq

/-- `Tree::matches_pattern`: ANY of the tree's gating patterns matches. -/
def Tree.matchesPattern (t : Tree) (label : List Char) : Bool :=
  t.patterns.any fun p => p.isMatch label

/-- One execution of the `while let` loop body of `Tree::search_node`,
bounded by fuel. `none` = the given fuel did not suffice (the Rust loop
is still running); `some none` = the loop exited because the index left
the node list (Rust returns `None`); `some (some p)` = a leaf with pdf
index `p` was reached (Rust returns `Some(p)`). -/
def searchNodeFuel (nodes : List TreeNode) (label : List Char) :
    ℕ → ℕ → Option (Option ℕ)
  | 0, _ => none
  | fuel + 1, i =>
    match nodes[i]? with
    | none => some none
    | some (.leaf p) => some (some p)
    | some (.node pats y n) =>
      searchNodeFuel nodes label fuel (if pats.any fun p => p.isMatch label then y else n)

/-- The walk of `Tree::search_node` from index `i` reaches outcome `r`:
`some p` when it ends on a leaf with pdf index `p`, `none` when a step
leads outside the node list. -/
inductive Reaches (nodes : List TreeNode) (label : List Char) : ℕ → Option ℕ → Prop where
  | leaf (i p : ℕ) (h : nodes[i]? = some (.leaf p)) : Reaches nodes label i (some p)
  | oob (i : ℕ) (h : nodes[i]? = none) : Reaches nodes label i none
  | step (i : ℕ) (pats : List Pattern) (y n : ℕ) (r : Option ℕ)
      (h : nodes[i]? = some (.node pats y n))
      (hr : Reaches nodes label (if pats.any fun p => p.isMatch label then y else n) r) :
      Reaches nodes label i r

theorem searchNodeFuel_mono (nodes : List TreeNode) (label : List Char) :
    ∀ fuel fuel' i r, fuel ≤ fuel' →
      searchNodeFuel nodes label fuel i = some r →
      searchNodeFuel nodes label fuel' i = some r := by
  intro fuel
  induction fuel with
  | zero => intro fuel' i r _ h; simp [searchNodeFuel] at h
  | succ f ih =>
    intro fuel' i r hle h
    obtain ⟨f', rfl⟩ : ∃ f', fuel' = f' + 1 := by
      cases fuel' with
      | zero => omega
      | succ k => exact ⟨k, rfl⟩
    rw [searchNodeFuel] at h ⊢
    cases hg : nodes[i]? with
    | none => rw [hg] at h; exact h
    | some nd =>
      rw [hg] at h
      cases nd with
      | leaf p => exact h
      | node pats y n => exact ih f' _ r (by omega) h

/-- C7: whenever the walk of `Tree::search_node` from node 0 reaches an
outcome — a leaf (a well-formed tree, in which repeated yes/no steps
always reach a leaf) or an index outside the node list — the loop
terminates with exactly that outcome: `Some pdf` for a leaf, `None` for
an out-of-range step. -/
theorem c7_search_node_terminates (nodes : List TreeNode) (label : List Char)
    (r : Option ℕ) (h : Reaches nodes label 0 r) :
    ∃ fuel, searchNodeFuel nodes label fuel 0 = some r := by
  suffices hgen : ∀ i r, Reaches nodes label i r →
      ∃ fuel, searchNodeFuel nodes label fuel i = some r from hgen 0 r h
  intro i r hr
  induction hr with
  | leaf i p hget => exact ⟨1, by simp [searchNodeFuel, hget]⟩
  | oob i hget => exact ⟨1, by simp [searchNodeFuel, hget]⟩
  | step i pats y n r hget _ ih =>
    obtain ⟨fuel, hfuel⟩ := ih
    refine ⟨fuel + 1, ?_⟩
    rw [searchNodeFuel, hget]
    exact hfuel

/-- C7 witness: a two-node tree (branch, then leaf) reaches its leaf and
the search returns its pdf index. -/
theorem c7_search_node_terminates_witness :
    Reaches [TreeNode.node [Pattern.all] 1 1, TreeNode.leaf 7] ['a'] 0 (some 7) ∧
      ∃ fuel, searchNodeFuel [TreeNode.node [Pattern.all] 1 1, TreeNode.leaf 7] ['a']
        fuel 0 = some (some 7) := by
  have hreach : Reaches [TreeNode.node [Pattern.all] 1 1, TreeNode.leaf 7] ['a'] 0 (some 7) :=
    .step 0 [Pattern.all] 1 1 (some 7) rfl (by exact .leaf 1 7 rfl)
  exact ⟨hreach, c7_search_node_terminates _ _ _ hreach⟩

/-- Outcome of a (possibly panicking, possibly looping) computation:
`ok`, a Rust panic (`todo!` / out-of-bounds indexing), or "the fuel
bound did not settle the tree walk". -/
inductive Res (α : Type) where
  | ok (a : α)
  | panic
  | fuelOut
deriving DecidableEq

/-- A Gaussian parameter: (mean, variance) pairs plus the optional msd
scalar (src/model/stream.rs, `ModelParameter`). `f64` is modelled as `ℚ`. -/
structure ModelParameter where
  parameters : List (ℚ × ℚ)
  msd : Option ℚ
deriving DecidableEq

/-- The per-stream model: trees plus the PDF table
(src/model/stream.rs, `Model`). -/
structure Model where
  trees : List Tree
  pdf : List (List ModelParameter)

/-- `Tree::search_node` with a fuel bound, starting at node 0. -/
def Tree.searchNode (t : Tree) (label : List Char) (fuel : ℕ) : Res (Option ℕ) :=
  match searchNodeFuel t.nodes label fuel 0 with
  | none => .fuelOut
  | some r => .ok r

/-- `Model::find_tree_index`: the first tree whose state equals
`stateIndex` and whose gating patterns match the label. -/
def Model.findTreeIndexAux (stateIndex : ℕ) (label : List Char) :
    ℕ → List Tree → Option ℕ
  | _, [] => none
  | i, t :: ts =>
    if t.state = stateIndex ∧ t.matchesPattern label = true then some i
    else Model.findTreeIndexAux stateIndex label (i + 1) ts

def Model.findTreeIndex (m : Model) (stateIndex : ℕ) (label : List Char) : Option ℕ :=
  Model.findTreeIndexAux stateIndex label 0 m.trees

/-- `Model::get_index`: pair (tree index + 2 when found, pdf index from
the leaf search on the found tree, or on tree 0 as fallback). Indexing
`trees[0]` of an empty tree list is the panic case. -/
def Model.getIndex (m : Model) (stateIndex : ℕ) (label : List Char) (fuel : ℕ) :
    Res (Option ℕ × Option ℕ) :=
  let treeIndex := m.findTreeIndex stateIndex label
  match (match treeIndex with
         | some idx => m.trees[idx]?
         | none => m.trees[0]?) with
  | none => .panic
  | some t =>
    match t.searchNode label fuel with
    | .fuelOut => .fuelOut
    | .panic => .panic
    | .ok pdfIndex => .ok (treeIndex.map (· + 2), pdfIndex)

/-- `Model::get_parameter`: destructures `get_index` as
`(Some(tree_index), Some(pdf_index))` and otherwise hits
`todo!("index not found!")` — a panic. On success it reads
`pdf[tree_index - 2][pdf_index - 1]` (panicking when out of range). -/
def Model.getParameter (m : Model) (stateIndex : ℕ) (label : List Char) (fuel : ℕ) :
    Res ModelParameter :=
  match m.getIndex stateIndex label fuel with
  | .fuelOut => .fuelOut
  | .panic => .panic
  | .ok (some treeIndex, some pdfIndex) =>
    match (m.pdf[treeIndex - 2]?).bind fun row => row[pdfIndex - 1]? with
    | some p => .ok p
    | none => .panic
  | .ok _ => .panic

theorem findTreeIndexAux_spec (stateIndex : ℕ) (label : List Char) :
    ∀ (ts : List Tree) (base i : ℕ),
      Model.findTreeIndexAux stateIndex label base ts = some i →
      base ≤ i ∧ ∃ t, ts[i - base]? = some t ∧ t.state = stateIndex ∧
        t.matchesPattern label = true ∧
        ∀ j, j < i - base → ∀ t', ts[j]? = some t' →
          ¬(t'.state = stateIndex ∧ t'.matchesPattern label = true) := by
  intro ts
  induction ts with
  | nil => intro base i h; simp [Model.findTreeIndexAux] at h
  | cons t rest ih =>
    intro base i h
    rw [Model.findTreeIndexAux] at h
    by_cases hc : t.state = stateIndex ∧ t.matchesPattern label = true
    · rw [if_pos hc] at h
      obtain rfl : base = i := by exact Option.some.inj h
      refine ⟨le_refl _, t, ?_, hc.1, hc.2, ?_⟩
      · simp
      · intro j hj
        omega
    · rw [if_neg hc] at h
      obtain ⟨hle, t', hget, hst, hM, hfirst⟩ := ih (base + 1) i h
      refine ⟨by omega, t', ?_, hst, hM, ?_⟩
      · have : i - base = (i - (base + 1)) + 1 := by omega
        rw [this]
        simpa using hget
      · intro j hj t'' hget''
        cases j with
        | zero =>
          simp only [List.getElem?_cons_zero, Option.some.injEq] at hget''
          subst hget''
          exact hc
        | succ j' =>
          refine hfirst j' (by omega) t'' ?_
          simpa using hget''

/-- C1 counterexample: a model with a single tree whose gating pattern
does not match the label; `find_tree_index` fails, the leaf search falls
back to tree 0 and succeeds, yet `get_parameter` panics at
`todo!("index not found!")` instead of returning the parameter from
tree 0's PDF table. -/
theorem c1_fallback_panics :
    (Model.getIndex
        ⟨[⟨2, [Pattern.contains ['x']], [TreeNode.leaf 1]⟩],
         [[⟨[(1, 2)], none⟩]]⟩ 2 ['a', 'b', 'c'] 10
      = .ok (none, some 1)) ∧
    (Model.getParameter
        ⟨[⟨2, [Pattern.contains ['x']], [TreeNode.leaf 1]⟩],
         [[⟨[(1, 2)], none⟩]]⟩ 2 ['a', 'b', 'c'] 10
      = .panic) := by
  constructor
  · rfl
  · rfl

/-- C1 (amended): `get_parameter` resolves the first tree whose state
equals the queried state and whose gating patterns match the label; on
that tree the leaf search determines the pdf index and the returned
parameter is `pdf[tree][pdf_index - 1]` (a panic when that position is
out of range). When no tree matches, the leaf search still runs on tree
0 (visible in `get_index`), but `get_parameter` panics
(`todo!("index not found!")`) instead of returning a parameter from
tree 0's PDF table. -/
theorem c1_get_parameter_resolution (m : Model) (stateIndex : ℕ) (label : List Char)
    (fuel : ℕ) :
    (∀ i, m.findTreeIndex stateIndex label = some i →
      (∃ t, m.trees[i]? = some t ∧ t.state = stateIndex ∧
          t.matchesPattern label = true ∧
          (∀ j, j < i → ∀ t', m.trees[j]? = some t' →
            ¬(t'.state = stateIndex ∧ t'.matchesPattern label = true)) ∧
          ∀ k, t.searchNode label fuel = .ok (some k) →
            m.getParameter stateIndex label fuel =
              match (m.pdf[i]?).bind fun row => row[k - 1]? with
              | some p => .ok p
              | none => .panic)) ∧
    (m.findTreeIndex stateIndex label = none →
      ∀ t0 r, m.trees[0]? = some t0 → t0.searchNode label fuel = .ok r →
        m.getIndex stateIndex label fuel = .ok (none, r) ∧
          m.getParameter stateIndex label fuel = .panic) := by
  constructor
  · intro i hfind
    obtain ⟨-, t, hget, hst, hM, hfirst⟩ :=
      findTreeIndexAux_spec stateIndex label m.trees 0 i hfind
    simp only [Nat.sub_zero] at hget hfirst
    refine ⟨t, hget, hst, hM, hfirst, ?_⟩
    intro k hsearch
    rw [Model.getParameter, Model.getIndex]
    simp only [Model.findTreeIndex] at hfind
    rw [Model.findTreeIndex] at *
    rw [hfind]
    simp only [hget, hsearch]
    simp
  · intro hfind t0 r hget hsearch
    rw [Model.findTreeIndex] at hfind
    constructor
    · rw [Model.getIndex, Model.findTreeIndex, hfind]
      simp [hget, hsearch]
    · rw [Model.getParameter, Model.getIndex, Model.findTreeIndex, hfind]
      cases r <;> simp [hget, hsearch]

/-- C1 witness: a model whose single tree matches; the parameter at
`pdf[0][0]` is returned. -/
theorem c1_get_parameter_resolution_witness :
    (Model.findTreeIndex
        ⟨[⟨2, [Pattern.all], [TreeNode.leaf 1]⟩], [[⟨[(3, 4)], none⟩]]⟩ 2 ['a']
      = some 0) ∧
    (Model.getParameter
        ⟨[⟨2, [Pattern.all], [TreeNode.leaf 1]⟩], [[⟨[(3, 4)], none⟩]]⟩ 2 ['a'] 5
      = .ok ⟨[(3, 4)], none⟩) := by
  refine ⟨rfl, ?_⟩
  obtain ⟨t, hget, -, -, -, hok⟩ :=
    (c1_get_parameter_resolution
      ⟨[⟨2, [Pattern.all], [TreeNode.leaf 1]⟩], [[⟨[(3, 4)], none⟩]]⟩ 2 ['a'] 5).1 0 rfl
  obtain rfl : t = ⟨2, [Pattern.all], [TreeNode.leaf 1]⟩ := by
    exact Option.some.inj hget.symm
  exact hok 1 rfl

/-! ## Parameter mixing (src/model/stream.rs, `ModelParameter::add_assign`) -/

/-- `ModelParameter::new`: a zero accumulator of the given size, with a
zero msd scalar iff the stream is MSD. -/
def ModelParameter.new (size : ℕ) (isMsd : Bool) : ModelParameter :=
  ⟨List.replicate size (0, 0), if isMsd then some 0 else none⟩

/-- `ModelParameter::add_assign` (src/model/stream.rs): for each index
of `rhs.parameters`, add `weight * rhs` into `self` (mean and variance
separately); the msd scalar is updated only when both sides carry one.
Indexing `self.parameters[i]` panics when `rhs` has more pairs than
`self`, hence the `Option`. -/
def ModelParameter.addAssign (self : ModelParameter) (weight : ℚ)
    (rhs : ModelParameter) : Option ModelParameter :=
  if rhs.parameters.length ≤ self.parameters.length then
    some ⟨List.zipWith (fun p q => (p.1 + weight * q.1, p.2 + weight * q.2))
            self.parameters rhs.parameters
          ++ self.parameters.drop rhs.parameters.length,
          match self.msd, rhs.msd with
          | some m, some rm => some (m + weight * rm)
          | m, _ => m⟩
  else none

/-- The componentwise sum of two `ModelParameter`s: every (mean,
variance) pair added pairwise, and the msd scalars added (present only
when both are). -/
def ModelParameter.addParameter (a b : ModelParameter) : ModelParameter :=
  ⟨List.zipWith (fun p q => (p.1 + q.1, p.2 + q.2)) a.parameters b.parameters,
   match a.msd, b.msd with
   | some x, some y => some (x + y)
   | _, _ => none⟩

/-- Modelled from the spec: the mixing loop (`for each voice v,
accum += weights[v] * getParameter(v,s,j,L)`) lives outside src/ (only
`add_assign` is in src/); the accumulator starts at
`ModelParameter::new` and each (weight, parameter) pair is folded in by
`add_assign`. -/
def mixGo : ModelParameter → List (ℚ × ModelParameter) → Option ModelParameter
  | acc, [] => some acc
  | acc, (w, p) :: rest =>
    match acc.addAssign w p with
    | some acc2 => mixGo acc2 rest
    | none => none

/-- Modelled from the spec: `mix(state j, label L, weights[V])` with the
per-voice parameters (already looked up for the given state and label)
passed as a list. -/
def mixParameters (size : ℕ) (isMsd : Bool) (weights : List ℚ)
    (params : List ModelParameter) : Option ModelParameter :=
  mixGo (ModelParameter.new size isMsd) (weights.zip params)

theorem zipWith_pairAdd_drop (n : ℕ) (A B : List (ℚ × ℚ)) :
    List.zipWith (fun p q => (p.1 + q.1, p.2 + q.2)) (A.drop n) (B.drop n)
      = (List.zipWith (fun p q => (p.1 + q.1, p.2 + q.2)) A B).drop n := by
  induction n generalizing A B with
  | zero => simp
  | succ k ih =>
    cases A with
    | nil => simp
    | cons a as =>
      cases B with
      | nil => simp
      | cons b bs => simpa using ih as bs

theorem zipWith_upd_addParameter (w w' : ℚ) :
    ∀ (A B R : List (ℚ × ℚ)), A.length = B.length →
      List.zipWith (fun p q => (p.1 + q.1, p.2 + q.2))
          (List.zipWith (fun p q => (p.1 + w * q.1, p.2 + w * q.2)) A R)
          (List.zipWith (fun p q => (p.1 + w' * q.1, p.2 + w' * q.2)) B R)
        = List.zipWith (fun p q => (p.1 + (w + w') * q.1, p.2 + (w + w') * q.2))
            (List.zipWith (fun p q => (p.1 + q.1, p.2 + q.2)) A B) R := by
  intro A
  induction A with
  | nil => intro B R h; simp
  | cons a as ih =>
    intro B R h
    cases B with
    | nil => simp at h
    | cons b bs =>
      cases R with
      | nil => simp
      | cons r rs =>
        simp only [List.zipWith_cons_cons, List.cons.injEq]
        refine ⟨?_, ih bs rs (by simpa using h)⟩
        simp only [Prod.mk.injEq]
        constructor <;> ring

theorem zipWith_append_eq (f : (ℚ × ℚ) → (ℚ × ℚ) → (ℚ × ℚ)) :
    ∀ (A B C D : List (ℚ × ℚ)), A.length = B.length →
      List.zipWith f (A ++ C) (B ++ D)
        = List.zipWith f A B ++ List.zipWith f C D := by
  intro A
  induction A with
  | nil => intro B C D h; cases B <;> simp_all
  | cons a as ih =>
    intro B C D h
    cases B with
    | nil => simp at h
    | cons b bs =>
      simp only [List.cons_append, List.zipWith_cons_cons]
      rw [ih bs C D (by simpa using h)]

theorem addAssign_shape (w : ℚ) (s r x : ModelParameter)
    (h : s.addAssign w r = some x) :
    x.parameters.length = s.parameters.length ∧ x.msd.isSome = s.msd.isSome := by
  rw [ModelParameter.addAssign] at h
  by_cases hle : r.parameters.length ≤ s.parameters.length
  · rw [if_pos hle] at h
    obtain rfl := Option.some.inj h
    constructor
    · simp only [List.length_append, List.length_zipWith, List.length_drop]
      omega
    · cases hs : s.msd <;> cases hr : r.msd <;> simp
  · rw [if_neg hle] at h
    exact absurd h (by simp)

theorem addAssign_linear (w w' : ℚ) (a b r x y : ModelParameter)
    (hlen : a.parameters.length = b.parameters.length)
    (hmsd : a.msd.isSome = b.msd.isSome)
    (hx : a.addAssign w r = some x) (hy : b.addAssign w' r = some y) :
    (a.addParameter b).addAssign (w + w') r = some (x.addParameter y) := by
  rw [ModelParameter.addAssign] at hx hy ⊢
  by_cases hle : r.parameters.length ≤ a.parameters.length
  · rw [if_pos hle] at hx
    rw [if_pos (hlen ▸ hle)] at hy
    obtain rfl := Option.some.inj hx
    obtain rfl := Option.some.inj hy
    have hlenAdd : (a.addParameter b).parameters.length = a.parameters.length := by
      simp only [ModelParameter.addParameter, List.length_zipWith]
      omega
    rw [if_pos (by omega : r.parameters.length ≤ (a.addParameter b).parameters.length)]
    simp only [ModelParameter.addParameter, Option.some.injEq, ModelParameter.mk.injEq]
    constructor
    · rw [zipWith_append_eq _ _ _ _ _ (by simp only [List.length_zipWith]; omega)]
      rw [zipWith_upd_addParameter w w' a.parameters b.parameters r.parameters hlen]
      rw [zipWith_pairAdd_drop]
    · cases ha : a.msd <;> cases hb : b.msd <;> cases hr : r.msd <;>
        simp_all <;> ring
  · rw [if_neg hle] at hx
    exact absurd hx (by simp)

theorem mixGo_linear :
    ∀ (ws₁ ws₂ : List ℚ) (ps : List ModelParameter) (a b x y : ModelParameter),
      ws₁.length = ws₂.length →
      a.parameters.length = b.parameters.length →
      a.msd.isSome = b.msd.isSome →
      mixGo a (ws₁.zip ps) = some x →
      mixGo b (ws₂.zip ps) = some y →
      mixGo (a.addParameter b) ((List.zipWith (· + ·) ws₁ ws₂).zip ps)
        = some (x.addParameter y) := by
  intro ws₁
  induction ws₁ with
  | nil =>
    intro ws₂ ps a b x y hw _ _ hx hy
    obtain rfl : ws₂ = [] := List.length_eq_zero.mp hw.symm
    simp only [List.zip_nil_left, mixGo] at hx hy ⊢
    obtain rfl := Option.some.inj hx
    obtain rfl := Option.some.inj hy
    rfl
  | cons w t₁ ih =>
    intro ws₂ ps a b x y hw hlen hmsd hx hy
    cases ws₂ with
    | nil => simp at hw
    | cons w' t₂ =>
      cases ps with
      | nil =>
        simp only [List.zip_nil_right, mixGo] at hx hy ⊢
        obtain rfl := Option.some.inj hx
        obtain rfl := Option.some.inj hy
        rfl
      | cons p pt =>
        simp only [List.zip_cons_cons, List.zipWith_cons_cons, mixGo] at hx hy ⊢
        cases ha2 : a.addAssign w p with
        | none => rw [ha2] at hx; exact absurd hx (by simp)
        | some a2 =>
          rw [ha2] at hx
          cases hb2 : b.addAssign w' p with
          | none => rw [hb2] at hy; exact absurd hy (by simp)
          | some b2 =>
            rw [hb2] at hy
            rw [addAssign_linear w w' a b p a2 b2 hlen hmsd ha2 hb2]
            obtain ⟨hl2, hm2⟩ := addAssign_shape w a p a2 ha2
            obtain ⟨hl2b, hm2b⟩ := addAssign_shape w' b p b2 hb2
            exact ih t₂ pt a2 b2 x y (by simpa using hw)
              (by rw [hl2, hl2b]; exact hlen) (by rw [hm2, hm2b]; exact hmsd) hx hy

theorem new_addParameter_new (size : ℕ) (isMsd : Bool) :
    (ModelParameter.new size isMsd).addParameter (ModelParameter.new size isMsd)
      = ModelParameter.new size isMsd := by
  rw [ModelParameter.new, ModelParameter.addParameter]
  simp only [ModelParameter.mk.injEq]
  constructor
  · induction size with
    | zero => simp
    | succ n ih => simpa using ih
  · cases isMsd <;> simp

/-- C8: mixing is linear in the interpolation weights — for equal-length
weight vectors, mixing with the componentwise sum `w₁ + w₂` equals the
componentwise sum (on every (mean, variance) pair and on the msd scalar)
of the mixes under `w₁` and under `w₂`. -/
theorem c8_mixing_linear (size : ℕ) (isMsd : Bool) (params : List ModelParameter)
    (w₁ w₂ : List ℚ) (a b : ModelParameter)
    (hw : w₁.length = w₂.length)
    (h1 : mixParameters size isMsd w₁ params = some a)
    (h2 : mixParameters size isMsd w₂ params = some b) :
    mixParameters size isMsd (List.zipWith (· + ·) w₁ w₂) params
      = some (a.addParameter b) := by
  rw [mixParameters] at h1 h2 ⊢
  rw [← new_addParameter_new size isMsd]
  exact mixGo_linear w₁ w₂ params _ _ a b hw rfl rfl h1 h2

/-- C8 witness: one voice, weight 2 and weight 3 mix to the weight-5 mix. -/
theorem c8_mixing_linear_witness :
    (mixParameters 1 true [2] [⟨[(1, 2)], some (1/2)⟩] = some ⟨[(2, 4)], some 1⟩) ∧
    (mixParameters 1 true [3] [⟨[(1, 2)], some (1/2)⟩] = some ⟨[(3, 6)], some (3/2)⟩) ∧
    (mixParameters 1 true (List.zipWith (· + ·) [2] [3]) [⟨[(1, 2)], some (1/2)⟩]
      = some (ModelParameter.addParameter ⟨[(2, 4)], some 1⟩ ⟨[(3, 6)], some (3/2)⟩)) := by
  have h1 : mixParameters 1 true [2] [⟨[(1, 2)], some (1/2)⟩]
      = some ⟨[(2, 4)], some 1⟩ := by
    simp only [mixParameters, mixGo, ModelParameter.new, ModelParameter.addAssign,
      List.zip_cons_cons, List.zip_nil_right, List.replicate, List.length_cons,
      List.length_nil, List.zipWith_cons_cons, List.zipWith_nil_right, List.drop]
    norm_num
  have h2 : mixParameters 1 true [3] [⟨[(1, 2)], some (1/2)⟩]
      = some ⟨[(3, 6)], some (3/2)⟩ := by
    simp only [mixParameters, mixGo, ModelParameter.new, ModelParameter.addAssign,
      List.zip_cons_cons, List.zip_nil_right, List.replicate, List.length_cons,
      List.length_nil, List.zipWith_cons_cons, List.zipWith_nil_right, List.drop]
    norm_num
  exact ⟨h1, h2, c8_mixing_linear 1 true [⟨[(1, 2)], some (1/2)⟩] [2] [3] _ _ rfl h1 h2⟩

/-! ## Option parsing in `Condition::load_model` (src/engine.rs) -/

/-- The fields of `Condition` written by the option loop of
`load_model`: `stage` (key GAMMA), `use_log_gain` (key LN_GAIN),
`alpha` (key ALPHA). -/
structure CondState where
  stage : ℕ
  useLogGain : Bool
  alpha : ℚ
deriving DecidableEq

/-- `str::split_once('=')`: split at the first occurrence of the
separator; `none` when the separator does not occur. -/
def splitOnceAux (sep : Char) : List Char → Option (List Char × List Char)
  | [] => none
  | c :: cs =>
    if c = sep then some ([], cs)
    else (splitOnceAux sep cs).map fun pr => (c :: pr.1, pr.2)

def splitOnce (sep : Char) (s : String) : Option (String × String) :=
  (splitOnceAux sep s.toList).map fun pr => (pr.1.asString, pr.2.asString)

/-- One iteration of the option loop of `Condition::load_model`
(src/engine.rs). `value.parse::<usize>()` and `value.parse::<f64>()`
are abstracted as the parameters `parseNat` and `parseFloat`
(they are `std` library functions, external to this crate); `none`
means the parse failed. Options without `=` and options with an
unrecognized key are logged to stderr (a side effect outside this
embedding) and skipped. `Except.error k` is
`EngineError::ParseOptionError(k)`. -/
def processOption (parseNat : String → Option ℕ) (parseFloat : String → Option ℚ)
    (st : CondState) (opt : String) : Except String CondState :=
  match splitOnce '=' opt with
  | none => .ok st
  | some (key, value) =>
    if key = "GAMMA" then
      match parseNat value with
      | some n => .ok { st with stage := n }
      | none => .error key
    else if key = "LN_GAIN" then
      if value = "1" then .ok { st with useLogGain := true }
      else if value = "0" then .ok { st with useLogGain := false }
      else .error key
    else if key = "ALPHA" then
      match parseFloat value with
      | some a => .ok { st with alpha := a }
      | none => .error key
    else .ok st

/-- The option loop of `Condition::load_model`: the first
`ParseOptionError` aborts (`?` operator), otherwise the state is
threaded through. -/
def loadModelOptions (parseNat : String → Option ℕ) (parseFloat : String → Option ℚ) :
    CondState → List String → Except String CondState
  | st, [] => .ok st
  | st, o :: os =>
    match processOption parseNat parseFloat st o with
    | .ok st2 => loadModelOptions parseNat parseFloat st2 os
    | .error k => .error k

/-- The spec's description of a bad option: a recognized key whose value
is unparseable — GAMMA or ALPHA failing numeric parsing, or LN_GAIN with
a value that is neither "0" nor "1". Returns the offending key. -/
def specBadOption (parseNat : String → Option ℕ) (parseFloat : String → Option ℚ)
    (opt : String) : Option String :=
  (splitOnce '=' opt).bind fun pr =>
    if (pr.1 = "GAMMA" ∧ parseNat pr.2 = none)
        ∨ (pr.1 = "ALPHA" ∧ parseFloat pr.2 = none)
        ∨ (pr.1 = "LN_GAIN" ∧ pr.2 ≠ "0" ∧ pr.2 ≠ "1") then
      some pr.1
    else none

/-- The first bad option of a list, in order. -/
def firstBadOption (parseNat : String → Option ℕ) (parseFloat : String → Option ℚ) :
    List String → Option String
  | [] => none
  | o :: os =>
    match specBadOption parseNat parseFloat o with
    | some k => some k
    | none => firstBadOption parseNat parseFloat os

theorem processOption_error_iff (parseNat : String → Option ℕ)
    (parseFloat : String → Option ℚ) (st : CondState) (opt : String) (k : String) :
    processOption parseNat parseFloat st opt = .error k ↔
      specBadOption parseNat parseFloat opt = some k := by
  rw [processOption, specBadOption]
  cases hsplit : splitOnce '=' opt with
  | none => simp
  | some pr =>
    obtain ⟨key, value⟩ := pr
    simp only [Option.bind_some]
    by_cases hg : key = "GAMMA"
    · subst hg
      cases hn : parseNat value <;> simp [hn]
    · by_cases hl : key = "LN_GAIN"
      · subst hl
        by_cases h1 : value = "1"
        · simp [h1]
        · by_cases h0 : value = "0" <;> simp [h0, h1]
      · by_cases ha : key = "ALPHA"
        · subst ha
          cases hf : parseFloat value <;> simp [hf, hg]
        · simp [hg, hl, ha]

theorem processOption_ok_of_not_bad (parseNat : String → Option ℕ)
    (parseFloat : String → Option ℚ) (st : CondState) (opt : String)
    (h : specBadOption parseNat parseFloat opt = none) :
    ∃ st2, processOption parseNat parseFloat st opt = .ok st2 := by
  cases hp : processOption parseNat parseFloat st opt with
  | ok st2 => exact ⟨st2, rfl⟩
  | error k =>
    rw [processOption_error_iff] at hp
    rw [hp] at h
    exact absurd h (by simp)

/-- C6: the option loop of `Condition::load_model` returns
`ParseOptionError(k)` exactly when the first bad option — a recognized
key (GAMMA or ALPHA) whose value fails numeric parsing, or LN_GAIN with
a value other than "0"/"1" — has key `k`; and every option with no `=`
separator or an unrecognized key is skipped unchanged (it is logged to
the error stream, a side effect outside this embedding) and produces no
error. -/
theorem c6_load_model_option_errors (parseNat : String → Option ℕ)
    (parseFloat : String → Option ℚ) :
    (∀ (st : CondState) (opts : List String) (k : String),
      loadModelOptions parseNat parseFloat st opts = .error k ↔
        firstBadOption parseNat parseFloat opts = some k) ∧
    (∀ (st : CondState) (opt : String),
      (splitOnce '=' opt = none ∨
        ∃ key value, splitOnce '=' opt = some (key, value) ∧
          key ≠ "GAMMA" ∧ key ≠ "LN_GAIN" ∧ key ≠ "ALPHA") →
      processOption parseNat parseFloat st opt = .ok st) := by
  constructor
  · intro st opts
    induction opts generalizing st with
    | nil => intro k; simp [loadModelOptions, firstBadOption]
    | cons o os ih =>
      intro k
      rw [loadModelOptions, firstBadOption]
      cases hbad : specBadOption parseNat parseFloat o with
      | some k0 =>
        rw [← processOption_error_iff parseNat parseFloat st o k0] at hbad
        rw [hbad]
        simp
      | none =>
        obtain ⟨st2, hok⟩ := processOption_ok_of_not_bad parseNat parseFloat st o hbad
        rw [hok]
        exact ih st2 k
  · intro st opt h
    rw [processOption]
    rcases h with hnone | ⟨key, value, hsome, hg, hl, ha⟩
    · rw [hnone]
    · rw [hsome]
      simp [hg, hl, ha]

/-- C6 witness: an option list with an unrecognized key, a separator-free
entry, and a GAMMA whose value fails to parse; the loop reports GAMMA. -/
theorem c6_load_model_option_errors_witness :
    (loadModelOptions (fun s => if s = "7" then some 7 else none) (fun _ => some 0) ⟨0, false, 0⟩
        ["FOO=1", "bar", "GAMMA=x", "ALPHA=y"] = .error "GAMMA") ∧
    (processOption (fun s => if s = "7" then some 7 else none) (fun _ => some 0) ⟨0, false, 0⟩ "FOO=1"
      = .ok ⟨0, false, 0⟩) := by
  constructor
  · exact ((c6_load_model_option_errors (fun s => if s = "7" then some 7 else none) (fun _ => some 0)).1
      ⟨0, false, 0⟩ ["FOO=1", "bar", "GAMMA=x", "ALPHA=y"] "GAMMA").mpr (by decide)
  · exact (c6_load_model_option_errors (fun s => if s = "7" then some 7 else none) (fun _ => some 0)).2
      ⟨0, false, 0⟩ "FOO=1" (.inr ⟨"FOO", "1", by decide, by decide, by decide, by decide⟩)

/-! ## Speech generation frame loop (src/speech.rs, `SpeechGenerator`) -/

/-- `SpeechGenerator` (src/speech.rs): frame period plus the vocoder
parameters it forwards on every call. -/
structure SpeechGenerator where
  fperiod : ℕ
  alpha : ℚ
  beta : ℚ
  volume : ℚ

/-- The validity checks at the head of `SpeechGenerator::synthesize`
(src/speech.rs): only run when `lf0` is non-empty; `panic!` when the lf0
static vector length differs from 1 or when a present lpf stream has an
even first-row length (indexing `lpf[0]` of an empty lpf panics too).
`none` models the panic. -/
def speechChecks (lf0 : List (List ℚ)) (lpf : Option (List (List ℚ))) : Option Unit :=
  match lf0.head? with
  | none => some ()
  | some l0 =>
    if l0.length ≠ 1 then none
    else
      match lpf with
      | none => some ()
      | some ls =>
        match ls.head? with
        | none => none
        | some r0 => if r0.length % 2 = 0 then none else some ()

/-- Overwrite `speech[start .. start + xs.length)` with `xs`: the model
of the vocoder writing `rawdata[i]` for `i < fperiod` into the slice
`&mut speech[i*fperiod..(i+1)*fperiod]`. -/
def writeFrame (speech : List ℚ) (start : ℕ) (xs : List ℚ) : List ℚ :=
  speech.take start ++ xs ++ speech.drop (start + xs.length)

/-- The frame loop of `SpeechGenerator::synthesize`. The vocoder
(`Vocoder::synthesize`, whose filter and excitation internals live in
submodules) is abstracted as a state-passing function `vstep` producing
this frame's vocoder state and per-sample outputs; exactly `fperiod`
samples are written per frame, mirroring the in-place writes
`rawdata[i] = ...` for `i < fperiod`. Indexing `lf0[i][0]`,
`spectrum[i]` and `lpf[i]` panics (`none`) when out of range. -/
def synthFrames {V : Type} (g : SpeechGenerator)
    (vstep : V → ℚ → List ℚ → List ℚ → ℚ → ℚ → ℚ → V × (ℕ → ℚ))
    (spectrum lf0 : List (List ℚ)) (lpf : Option (List (List ℚ)))
    (i : ℕ) (v : V) (speech : List ℚ) : Option (List ℚ) :=
    if h : i < lf0.length then
      lf0[i]?.bind fun lf0i =>
        lf0i[0]?.bind fun x =>
          spectrum[i]?.bind fun spec =>
            (match lpf with
             | none => some ([] : List ℚ)
             | some ls => ls[i]?).bind fun lpfi =>
              let st := vstep v x spec lpfi g.alpha g.beta g.volume
              synthFrames g vstep spectrum lf0 lpf (i + 1) st.1
                (writeFrame speech (i * g.fperiod) ((List.range g.fperiod).map st.2))
    else some speech
termination_by lf0.length - i
decreasing_by
  simp_wf
  omega

/-- `SpeechGenerator::synthesize` (src/speech.rs): run the checks,
allocate `total_frame * fperiod` zeros, then loop over the frames. -/
def SpeechGenerator.synthesize {V : Type} (g : SpeechGenerator)
    (vstep : V → ℚ → List ℚ → List ℚ → ℚ → ℚ → ℚ → V × (ℕ → ℚ)) (v : V)
    (spectrum lf0 : List (List ℚ)) (lpf : Option (List (List ℚ))) :
    Option (List ℚ) :=
  (speechChecks lf0 lpf).bind fun _ =>
    synthFrames g vstep spectrum lf0 lpf 0 v
      (List.replicate (lf0.length * g.fperiod) 0)

theorem writeFrame_length (speech : List ℚ) (start : ℕ) (xs : List ℚ)
    (h : start + xs.length ≤ speech.length) :
    (writeFrame speech start xs).length = speech.length := by
  rw [writeFrame]
  simp only [List.length_append, List.length_take, List.length_drop]
  omega

theorem synthFrames_length {V : Type} (g : SpeechGenerator)
    (vstep : V → ℚ → List ℚ → List ℚ → ℚ → ℚ → ℚ → V × (ℕ → ℚ))
    (spectrum lf0 : List (List ℚ)) (lpf : Option (List (List ℚ))) :
    ∀ (n i : ℕ) (v : V) (speech out : List ℚ),
      lf0.length - i ≤ n →
      speech.length = lf0.length * g.fperiod →
      synthFrames g vstep spectrum lf0 lpf i v speech = some out →
      out.length = lf0.length * g.fperiod := by
  intro n
  induction n with
  | zero =>
    intro i v speech out hn hlen h
    rw [synthFrames.eq_def, dif_neg (by omega)] at h
    obtain rfl := Option.some.inj h
    exact hlen
  | succ n ih =>
    intro i v speech out hn hlen h
    rw [synthFrames.eq_def] at h
    by_cases hi : i < lf0.length
    · rw [dif_pos hi] at h
      obtain ⟨lf0i, -, h⟩ := Option.bind_eq_some.mp h
      obtain ⟨x, -, h⟩ := Option.bind_eq_some.mp h
      obtain ⟨spec, -, h⟩ := Option.bind_eq_some.mp h
      obtain ⟨lpfi, -, h⟩ := Option.bind_eq_some.mp h
      refine ih (i + 1) _ _ out (by omega) ?_ h
      rw [writeFrame_length]
      · exact hlen
      · rw [hlen, List.length_map, List.length_range]
        have hmul : (i + 1) * g.fperiod ≤ lf0.length * g.fperiod :=
          Nat.mul_le_mul_right _ (by omega)
        rw [Nat.add_mul, Nat.one_mul] at hmul
        omega
    · rw [dif_neg hi] at h
      obtain rfl := Option.some.inj h
      exact hlen

/-- C4: whenever `SpeechGenerator::synthesize` returns (does not panic),
the returned sample vector has length exactly `T * fperiod`, `T` being
the number of frames of the lf0 parameter sequence. -/
theorem c4_synthesize_length {V : Type} (g : SpeechGenerator)
    (vstep : V → ℚ → List ℚ → List ℚ → ℚ → ℚ → ℚ → V × (ℕ → ℚ)) (v : V)
    (spectrum lf0 : List (List ℚ)) (lpf : Option (List (List ℚ))) (out : List ℚ)
    (h : g.synthesize vstep v spectrum lf0 lpf = some out) :
    out.length = lf0.length * g.fperiod := by
  rw [SpeechGenerator.synthesize] at h
  cases hc : speechChecks lf0 lpf with
  | none => rw [hc] at h; exact absurd h (by simp)
  | some u =>
    rw [hc, Option.some_bind] at h
    exact synthFrames_length g vstep spectrum lf0 lpf lf0.length 0 v _ out
      (by omega) (by simp) h

/-- C4 witness: one frame, fperiod 2, trivial vocoder — the output has
length `1 * 2`. -/
theorem c4_synthesize_length_witness :
    (SpeechGenerator.synthesize ⟨2, 0, 0, 1⟩ (fun _ _ _ _ _ _ _ => ((), fun _ => 0)) ()
        [[0]] [[0]] none = some [0, 0]) ∧
    ([0, 0] : List ℚ).length = ([[0]] : List (List ℚ)).length * 2 := by
  have hrun : SpeechGenerator.synthesize ⟨2, 0, 0, 1⟩
      (fun _ _ _ _ _ _ _ => ((), fun _ => 0)) () [[0]] [[0]] none = some [0, 0] := by
    rw [SpeechGenerator.synthesize]
    have hc : speechChecks [[0]] none = some () := rfl
    rw [hc, Option.some_bind]
    rw [synthFrames.eq_def]
    rw [dif_pos (by norm_num)]
    norm_num [writeFrame]
    rw [synthFrames.eq_def]
    norm_num
    rfl
  refine ⟨hrun, ?_⟩
  have hlen := c4_synthesize_length ⟨2, 0, 0, 1⟩
    (fun _ _ _ _ _ _ _ => ((), fun _ => 0)) () [[0]] [[0]] none [0, 0] hrun
  simpa using hlen

/-- C10: with an empty lf0 sequence (zero frames) `synthesize` skips the
validity checks entirely and returns the empty sample vector, for every
spectrum, every lpf argument (even one that would fail the checks), and
every vocoder. -/
theorem c10_empty_lf0_returns_empty {V : Type} (g : SpeechGenerator)
    (vstep : V → ℚ → List ℚ → List ℚ → ℚ → ℚ → ℚ → V × (ℕ → ℚ)) (v : V)
    (spectrum : List (List ℚ)) (lpf : Option (List (List ℚ))) :
    g.synthesize vstep v spectrum [] lpf = some [] := by
  rw [SpeechGenerator.synthesize]
  have hc : speechChecks [] lpf = some () := rfl
  rw [hc, Option.some_bind, synthFrames.eq_def, dif_neg (by simp)]
  simp

/-- C3: with a non-empty lf0 input, `synthesize` panics when the lf0
static vector length differs from 1, and panics when a low-pass-filter
stream is present whose (first-row) vector length is even; under the
data-model invariants — lf0 vectors of length 1 and an odd lpf vector
length when the third stream is present — neither abort branch is taken
and the check section passes. -/
theorem c3_synthesize_abort_checks {V : Type} (g : SpeechGenerator)
    (vstep : V → ℚ → List ℚ → List ℚ → ℚ → ℚ → ℚ → V × (ℕ → ℚ)) (v : V)
    (spectrum lf0 : List (List ℚ)) (lpf : Option (List (List ℚ))) :
    (∀ l0, lf0.head? = some l0 → l0.length ≠ 1 →
      g.synthesize vstep v spectrum lf0 lpf = none) ∧
    (∀ l0 ls r0, lf0.head? = some l0 → lpf = some ls → ls.head? = some r0 →
      r0.length % 2 = 0 → g.synthesize vstep v spectrum lf0 lpf = none) ∧
    (∀ l0, lf0.head? = some l0 → l0.length = 1 →
      (∀ ls, lpf = some ls → ∃ r0, ls.head? = some r0 ∧ r0.length % 2 = 1) →
      speechChecks lf0 lpf = some ()) := by
  refine ⟨?_, ?_, ?_⟩
  · intro l0 h0 hne
    have hc : speechChecks lf0 lpf = none := by
      rw [speechChecks.eq_def, h0]
      simp [hne]
    rw [SpeechGenerator.synthesize, hc, Option.none_bind]
  · intro l0 ls r0 h0 hlpf hr0 heven
    have hc : speechChecks lf0 lpf = none := by
      rw [speechChecks.eq_def, h0]
      by_cases hne : l0.length = 1
      · simp only [hne, hlpf, hr0]
        simp [heven]
      · simp [hne]
    rw [SpeechGenerator.synthesize, hc, Option.none_bind]
  · intro l0 h0 h1 hodd
    rw [speechChecks.eq_def, h0]
    cases hlpf : lpf with
    | none => simp [h1]
    | some ls =>
      obtain ⟨r0, hr0, hro⟩ := hodd ls hlpf
      simp only [h1, hr0]
      simp
      omega

/-- C3 witness: a 2-element lf0 static vector aborts; a length-1 lf0
with a 3-tap lpf passes the checks. -/
theorem c3_synthesize_abort_checks_witness :
    (([[0, 0]] : List (List ℚ)).head? = some [0, 0] ∧
      ([0, 0] : List ℚ).length ≠ 1 ∧
      SpeechGenerator.synthesize ⟨1, 0, 0, 1⟩
        (fun _ _ _ _ _ _ _ => ((), fun _ => 0)) () [[0]] [[0, 0]] none = none) ∧
    (speechChecks [[0]] (some [[0, 0, 0]]) = some ()) := by
  refine ⟨⟨rfl, by decide, ?_⟩, ?_⟩
  · exact (c3_synthesize_abort_checks ⟨1, 0, 0, 1⟩
      (fun _ _ _ _ _ _ _ => ((), fun _ => 0)) () [[0]] [[0, 0]] none).1
      [0, 0] rfl (by decide)
  · exact (c3_synthesize_abort_checks (V := Unit) ⟨1, 0, 0, 1⟩
      (fun _ _ _ _ _ _ _ => ((), fun _ => 0)) () [[0]] [[0]] (some [[0, 0, 0]])).2.2
      [0] rfl rfl (by rintro ls ⟨rfl⟩; exact ⟨[0, 0, 0], rfl, by decide⟩)

/-! ## Vocoder pitch period (src/vocoder/mod.rs, `Vocoder::synthesize`) -/

/-- Modelled from the spec: the numeric constants of `src/constants.rs`
(the file is not under src/): NODATA = -1.0e10, MIN_F0 = 20, MAX_F0 =
20000, MIN_LF0 = ln(MIN_F0), MAX_LF0 = ln(MAX_F0). `f64` is modelled as
`ℝ` here because of `exp`/`ln`. -/
noncomputable def NODATA : ℝ := -1.0e10

def MIN_F0 : ℝ := 20

def MAX_F0 : ℝ := 20000

noncomputable def MIN_LF0 : ℝ := Real.log 20

noncomputable def MAX_LF0 : ℝ := Real.log 20000

open Classical in
/-- The pitch-period computation at the head of `Vocoder::synthesize`
(src/vocoder/mod.rs): p = 0 on NODATA, `rate / MIN_F0` when
`lf0 <= MIN_LF0`, `rate / MAX_F0` when `lf0 >= MAX_LF0`, else
`rate / exp(lf0)`. -/
noncomputable def vocoderPitch (rate lf0 : ℝ) : ℝ :=
  if lf0 = NODATA then 0
  else if lf0 ≤ MIN_LF0 then rate / MIN_F0
  else if MAX_LF0 ≤ lf0 then rate / MAX_F0
  else rate / Real.exp lf0

theorem min_lf0_lt_max_lf0 : MIN_LF0 < MAX_LF0 := by
  rw [MIN_LF0, MAX_LF0]
  exact Real.log_lt_log (by norm_num) (by norm_num)

/-- C5: the pitch period is 0 at NODATA; `rate / MIN_F0` below MIN_LF0;
`rate / MAX_F0` above MAX_LF0; and `rate / exp(lf0)` in between — the
code's non-strict boundary tests agree with this strict-inequality case
split because exp(MIN_LF0) = MIN_F0 and exp(MAX_LF0) = MAX_F0. -/
theorem c5_vocoder_pitch_cases (rate lf0 : ℝ) :
    (lf0 = NODATA → vocoderPitch rate lf0 = 0) ∧
    (lf0 ≠ NODATA → lf0 < MIN_LF0 → vocoderPitch rate lf0 = rate / MIN_F0) ∧
    (lf0 ≠ NODATA → MAX_LF0 < lf0 → vocoderPitch rate lf0 = rate / MAX_F0) ∧
    (lf0 ≠ NODATA → MIN_LF0 ≤ lf0 → lf0 ≤ MAX_LF0 →
      vocoderPitch rate lf0 = rate / Real.exp lf0) := by
  refine ⟨?_, ?_, ?_, ?_⟩
  · intro h
    rw [vocoderPitch, if_pos h]
  · intro hnd hlt
    rw [vocoderPitch, if_neg hnd, if_pos (le_of_lt hlt)]
  · intro hnd hgt
    have hmin : ¬ lf0 ≤ MIN_LF0 := by
      have := min_lf0_lt_max_lf0
      push_neg
      linarith
    rw [vocoderPitch, if_neg hnd, if_neg hmin, if_pos (le_of_lt hgt)]
  · intro hnd hge hle
    rw [vocoderPitch, if_neg hnd]
    rcases eq_or_lt_of_le hge with heq | hlt
    · rw [if_pos (le_of_eq heq.symm)]
      rw [← heq, MIN_LF0, Real.exp_log (by norm_num), MIN_F0]
    · rw [if_neg (not_le_of_lt hlt)]
      rcases eq_or_lt_of_le hle with heq2 | hlt2
      · rw [if_pos (le_of_eq heq2.symm)]
        rw [heq2, MAX_LF0, Real.exp_log (by norm_num), MAX_F0]
      · rw [if_neg (not_le_of_lt hlt2)]

/-- C5 witness: at lf0 = 0 (below MIN_LF0 = ln 20, and distinct from
NODATA) the pitch period is rate / MIN_F0. -/
theorem c5_vocoder_pitch_cases_witness :
    (0 : ℝ) ≠ NODATA ∧ (0 : ℝ) < MIN_LF0 ∧
      vocoderPitch 48000 0 = 48000 / MIN_F0 := by
  have h1 : (0 : ℝ) ≠ NODATA := by rw [NODATA]; norm_num
  have h2 : (0 : ℝ) < MIN_LF0 := by
    rw [MIN_LF0]
    exact Real.log_pos (by norm_num)
  exact ⟨h1, h2, (c5_vocoder_pitch_cases 48000 0).2.1 h1 h2⟩

/-! ## Tree conversion (src/model/parser/convert.rs, `convert_tree`) -/

namespace Parser

/-- `TreeIndex` (src/model/parser/tree.rs): a yes/no edge names either
another node (by its signed id) or a pdf (by its signed index). -/
inductive TreeIndex where
  | node (id : ℤ)
  | pdf (id : ℤ)
deriving DecidableEq

/-- `Node` (src/model/parser/tree.rs). -/
structure Node where
  id : ℤ
  questionName : String
  yes : TreeIndex
  no : TreeIndex
deriving DecidableEq

/-- `Tree` (src/model/parser/tree.rs). -/
structure Tree where
  pattern : List String
  state : ℕ
  nodes : List Node
deriving DecidableEq

end Parser

namespace Voice

/-- `crate::model::voice::tree::TreeNode` as built by `convert_tree`:
branch (with its question payload) or leaf. The question type is
abstract (the `Question` type lives outside src/). -/
inductive TreeNode (Q : Type) where
  | node (question : Q) (yes no : ℕ)
  | leaf (pdfIndex : ℕ)
deriving DecidableEq

/-- `crate::model::voice::tree::Tree` as built by `convert_tree`. -/
structure Tree (Q : Type) where
  nodes : List (TreeNode Q)
  state : ℕ
deriving DecidableEq

end Voice

/-- `id as usize`: the 64-bit two's-complement cast of the signed pdf
index. -/
def intToUsize (i : ℤ) : ℕ := (i % (2 ^ 64)).toNat

/-- The node lookup table (`BTreeMap::from_iter` over
`nodes.iter().enumerate()` keyed by `node.id`): on duplicate ids the
later insertion wins, so the rest of the list is consulted first. -/
def nodeLutAux (id : ℤ) : ℕ → List Parser.Node → Option ℕ
  | _, [] => none
  | i, n :: ns =>
    match nodeLutAux id (i + 1) ns with
    | some j => some j
    | none => if n.id == id then some i else none

/-- `slice::binary_search` (the loop of Rust core): fuel-bounded; the
initial fuel `right - left` always suffices because each iteration
shrinks the interval. `none` is `Err(..)` (or exhausted fuel, which is
unreachable from `binarySearch`). -/
def binarySearchLoop (xs : List ℤ) (t : ℤ) : ℕ → ℕ → ℕ → Option ℕ
  | 0, _, _ => none
  | fuel + 1, left, right =>
    if left < right then
      match xs[left + (right - left) / 2]? with
      | none => none
      | some x =>
        if x < t then binarySearchLoop xs t fuel (left + (right - left) / 2 + 1) right
        else if t < x then binarySearchLoop xs t fuel left (left + (right - left) / 2)
        else some (left + (right - left) / 2)
    else none

def binarySearch (xs : List ℤ) (t : ℤ) : Option ℕ :=
  binarySearchLoop xs t xs.length 0 xs.length

/-- The pdf indices referenced by a yes/no edge. -/
def pdfRef : Parser.TreeIndex → List ℤ
  | .pdf id => [id]
  | .node _ => []

/-- The `pdfs` vector of `convert_tree` before sorting: for each node,
push the yes edge's pdf id (if any), then the no edge's. -/
def collectPdfs (nodes : List Parser.Node) : List ℤ :=
  nodes.flatMap fun n => pdfRef n.yes ++ pdfRef n.no

/-- Resolution of one yes/no edge in `convert_tree`: a node id goes
through the lookup table, a pdf id through binary search in the sorted
pdfs with offset `nodes.len()`; `None` is the `.unwrap()` panic. -/
def resolveIndex (nodes : List Parser.Node) (pdfs : List ℤ) :
    Parser.TreeIndex → Option ℕ
  | .node id => nodeLutAux id 0 nodes
  | .pdf id => (binarySearch pdfs id).map fun v => v + nodes.length

/-- The branch-building loop of `convert_tree`: each original node
becomes a `TreeNode::Node` with resolved yes/no indices and the question
looked up by name (each `.unwrap()` panic is `none`). -/
def convertNodes (Q : Type) (questionLut : String → Option Q)
    (nodes : List Parser.Node) (pdfs : List ℤ) :
    List Parser.Node → Option (List (Voice.TreeNode Q))
  | [] => some []
  | n :: ns =>
    match resolveIndex nodes pdfs n.yes, resolveIndex nodes pdfs n.no,
        questionLut n.questionName with
    | some y, some nn, some q =>
      (convertNodes Q questionLut nodes pdfs ns).map fun rest =>
        Voice.TreeNode.node q y nn :: rest
    | _, _, _ => none

/-- The general path of `convert_tree`: sorted pdf references
(`sort_unstable` modelled by insertion sort — on integers any sort
produces the same list), resolved branches, then one appended leaf per
entry of the sorted pdfs vector. -/
def convertTreeGeneral (Q : Type) (questionLut : String → Option Q)
    (orig : Parser.Tree) : Option (Voice.Tree Q) :=
  let pdfs := List.insertionSort (· ≤ ·) (collectPdfs orig.nodes)
  (convertNodes Q questionLut orig.nodes pdfs orig.nodes).map fun branches =>
    ⟨branches ++ pdfs.map fun i => Voice.TreeNode.leaf (intToUsize i), orig.state⟩

/-- `convert_tree` (src/model/parser/convert.rs): a one-node tree whose
yes and no edges are equal is special-cased to a single leaf (a
`todo!` panic when that shared edge is a node id). -/
def convertTree (Q : Type) (questionLut : String → Option Q)
    (orig : Parser.Tree) : Option (Voice.Tree Q) :=
  match orig.nodes with
  | [n] =>
    if n.yes = n.no then
      match n.yes with
      | .pdf i => some ⟨[Voice.TreeNode.leaf (intToUsize i)], orig.state⟩
      | .node _ => none
    else convertTreeGeneral Q questionLut orig
  | _ => convertTreeGeneral Q questionLut orig

theorem nodeLutAux_lt (id : ℤ) :
    ∀ (ns : List Parser.Node) (base j : ℕ), nodeLutAux id base ns = some j →
      base ≤ j ∧ j < base + ns.length := by
  intro ns
  induction ns with
  | nil => intro base j h; simp [nodeLutAux] at h
  | cons n rest ih =>
    intro base j h
    rw [nodeLutAux] at h
    cases hrec : nodeLutAux id (base + 1) rest with
    | some j2 =>
      rw [hrec] at h
      have hj : some j2 = some j := h
      obtain rfl := Option.some.inj hj
      obtain ⟨h1, h2⟩ := ih (base + 1) j2 hrec
      refine ⟨by omega, ?_⟩
      simp only [List.length_cons]
      omega
    | none =>
      rw [hrec] at h
      have h2 : (if (n.id == id) = true then some base else none) = some j := h
      by_cases hid : (n.id == id) = true
      · rw [if_pos hid] at h2
        obtain rfl := Option.some.inj h2
        simp only [List.length_cons]
        omega
      · rw [if_neg hid] at h2
        exact absurd h2 (by simp)

theorem binarySearchLoop_lt (xs : List ℤ) (t : ℤ) :
    ∀ (fuel left right v : ℕ), binarySearchLoop xs t fuel left right = some v →
      v < right := by
  intro fuel
  induction fuel with
  | zero => intro left right v h; simp [binarySearchLoop] at h
  | succ f ih =>
    intro left right v h
    rw [binarySearchLoop] at h
    by_cases hlr : left < right
    · rw [if_pos hlr] at h
      split at h
      · exact absurd h (by simp)
      · split at h
        · exact ih _ _ v h
        · split at h
          · have := ih _ _ v h
            omega
          · obtain rfl := Option.some.inj h
            omega
    · rw [if_neg hlr] at h
      exact absurd h (by simp)

theorem resolveIndex_lt (nodes : List Parser.Node) (pdfs : List ℤ)
    (ti : Parser.TreeIndex) (y : ℕ) (h : resolveIndex nodes pdfs ti = some y) :
    y < nodes.length + pdfs.length := by
  cases ti with
  | node id =>
    rw [resolveIndex] at h
    have := nodeLutAux_lt id nodes 0 y h
    omega
  | pdf id =>
    rw [resolveIndex] at h
    obtain ⟨v, hv, rfl⟩ := Option.map_eq_some'.mp h
    have := binarySearchLoop_lt pdfs id pdfs.length 0 pdfs.length v hv
    omega

theorem convertNodes_spec (Q : Type) (questionLut : String → Option Q)
    (nodes : List Parser.Node) (pdfs : List ℤ) :
    ∀ (l : List Parser.Node) (bl : List (Voice.TreeNode Q)),
      convertNodes Q questionLut nodes pdfs l = some bl →
      bl.length = l.length ∧
      ∀ b ∈ bl, ∃ q y n, b = Voice.TreeNode.node q y n ∧
        y < nodes.length + pdfs.length ∧ n < nodes.length + pdfs.length := by
  intro l
  induction l with
  | nil =>
    intro bl h
    rw [convertNodes] at h
    obtain rfl := Option.some.inj h
    simp
  | cons nd rest ih =>
    intro bl h
    rw [convertNodes] at h
    cases hy : resolveIndex nodes pdfs nd.yes with
    | none => rw [hy] at h; exact absurd h (by simp)
    | some y =>
      cases hn : resolveIndex nodes pdfs nd.no with
      | none => rw [hy, hn] at h; exact absurd h (by simp)
      | some n =>
        cases hq : questionLut nd.questionName with
        | none => rw [hy, hn, hq] at h; exact absurd h (by simp)
        | some q =>
          rw [hy, hn, hq] at h
          obtain ⟨rest2, hrest, rfl⟩ := Option.map_eq_some'.mp h
          obtain ⟨hlen, hmem⟩ := ih rest2 hrest
          refine ⟨by simp [hlen], ?_⟩
          intro b hb
          rcases List.mem_cons.mp hb with rfl | hb2
          · exact ⟨q, y, n, rfl, resolveIndex_lt nodes pdfs nd.yes y hy,
              resolveIndex_lt nodes pdfs nd.no n hn⟩
          · exact hmem b hb2

theorem convertTree_eq_general (Q : Type) (questionLut : String → Option Q)
    (orig : Parser.Tree)
    (h : ¬ ∃ nd, orig.nodes = [nd] ∧ nd.yes = nd.no) :
    convertTree Q questionLut orig = convertTreeGeneral Q questionLut orig := by
  rcases horig : orig.nodes with - | ⟨n, - | ⟨m, rest⟩⟩
  · rw [convertTree.eq_def, horig]
  · rw [convertTree.eq_def, horig]
    exact if_neg fun heq => h ⟨n, horig, heq⟩
  · rw [convertTree.eq_def, horig]

theorem convertTree_single (Q : Type) (questionLut : String → Option Q)
    (orig : Parser.Tree) (nd : Parser.Node)
    (hnd : orig.nodes = [nd]) (heq : nd.yes = nd.no) :
    convertTree Q questionLut orig =
      match nd.yes with
      | .pdf i => some ⟨[Voice.TreeNode.leaf (intToUsize i)], orig.state⟩
      | .node _ => none := by
  rw [convertTree.eq_def, hnd]
  exact if_pos heq

/-- C9 counterexample: a two-node tree in which pdf 1 is referenced by
two different edges; the converted node list carries two `Leaf 1`
entries (leaf pdf indices [1, 1, 2]), so it does not hold one leaf per
referenced pdf index — it holds one leaf per pdf *reference*. -/
theorem c9_duplicate_pdf_reference_leaves :
    (convertTree Unit (fun _ => some ())
        ⟨[], 2, [⟨0, "q0", .node (-1), .pdf 1⟩, ⟨-1, "q1", .pdf 1, .pdf 2⟩]⟩
      = some ⟨[Voice.TreeNode.node () 1 3, Voice.TreeNode.node () 3 4,
               Voice.TreeNode.leaf 1, Voice.TreeNode.leaf 1,
               Voice.TreeNode.leaf 2], 2⟩) ∧
    ¬ ([1, 1, 2] : List ℕ).Nodup := by
  constructor
  · rfl
  · decide

/-- C9 (amended): a tree produced (without panicking) by `convert_tree`
is index-closed: every branch's yes and no index is a valid position in
the node list. Its node list is the original branches in order, followed
by one leaf per pdf *reference* (an index referenced k times yields k
leaves) in ascending pdf order; a one-node input tree whose yes and no
edges name the same pdf index becomes the single leaf carrying that
index. -/
theorem c9_convert_tree_index_closed (Q : Type) (questionLut : String → Option Q)
    (orig : Parser.Tree) (out : Voice.Tree Q)
    (h : convertTree Q questionLut orig = some out) :
    (∀ q y n, Voice.TreeNode.node q y n ∈ out.nodes →
      y < out.nodes.length ∧ n < out.nodes.length) ∧
    (∀ nd i, orig.nodes = [nd] → nd.yes = .pdf i → nd.no = .pdf i →
      out.nodes = [Voice.TreeNode.leaf (intToUsize i)]) ∧
    ((¬ ∃ nd, orig.nodes = [nd] ∧ nd.yes = nd.no) →
      ∃ branches refs,
        refs.Perm (collectPdfs orig.nodes) ∧
        List.Sorted (· ≤ ·) refs ∧
        out.nodes = branches ++ refs.map (fun i => Voice.TreeNode.leaf (intToUsize i)) ∧
        branches.length = orig.nodes.length ∧
        ∀ b ∈ branches, ∃ q y n, b = Voice.TreeNode.node q y n) := by
  have hgen : ∀ (hns : ¬ ∃ nd, orig.nodes = [nd] ∧ nd.yes = nd.no),
      ∃ branches,
        convertNodes Q questionLut orig.nodes
            (List.insertionSort (· ≤ ·) (collectPdfs orig.nodes)) orig.nodes
          = some branches ∧
        out = ⟨branches ++ (List.insertionSort (· ≤ ·) (collectPdfs orig.nodes)).map
            (fun i => Voice.TreeNode.leaf (intToUsize i)), orig.state⟩ := by
    intro hns
    rw [convertTree_eq_general Q questionLut orig hns, convertTreeGeneral] at h
    obtain ⟨branches, hbr, hout⟩ := Option.map_eq_some'.mp h
    exact ⟨branches, hbr, hout.symm⟩
  by_cases hsp : ∃ nd, orig.nodes = [nd] ∧ nd.yes = nd.no
  · obtain ⟨nd, hnd, heq⟩ := hsp
    rw [convertTree_single Q questionLut orig nd hnd heq] at h
    cases hyes : nd.yes with
    | node id =>
      rw [hyes] at h
      have h2 : (none : Option (Voice.Tree Q)) = some out := h
      exact absurd h2.symm (by simp)
    | pdf i =>
      rw [hyes] at h
      have h2 : some (⟨[Voice.TreeNode.leaf (intToUsize i)], orig.state⟩ : Voice.Tree Q)
          = some out := h
      obtain rfl := Option.some.inj h2
      refine ⟨?_, ?_, ?_⟩
      · intro q y n hmem
        simp at hmem
      · intro nd2 i2 hnd2 hy2 hn2
        obtain rfl : nd2 = nd := by
          rw [hnd] at hnd2
          exact (List.cons.inj (hnd2.symm)).1
        rw [hyes] at hy2
        obtain rfl := (Parser.TreeIndex.pdf.inj hy2)
        rfl
      · intro hns
        exact absurd ⟨nd, hnd, heq⟩ hns
  · obtain ⟨branches, hbr, rfl⟩ := hgen hsp
    obtain ⟨hlen, hmem⟩ := convertNodes_spec Q questionLut orig.nodes _ orig.nodes
      branches hbr
    have hsortlen : (List.insertionSort (· ≤ ·) (collectPdfs orig.nodes)).length
        = (collectPdfs orig.nodes).length :=
      (List.perm_insertionSort (· ≤ ·) (collectPdfs orig.nodes)).length_eq
    refine ⟨?_, ?_, ?_⟩
    · intro q y n hmemnode
      simp only [List.length_append, List.length_map, hlen, hsortlen]
      rcases List.mem_append.mp hmemnode with hinb | hinl
      · obtain ⟨q2, y2, n2, heq2, hy2, hn2⟩ := hmem _ hinb
        obtain ⟨rfl, rfl, rfl⟩ : q2 = q ∧ y2 = y ∧ n2 = n := by
          have := heq2.symm
          simp only [Voice.TreeNode.node.injEq] at this
          exact this
        rw [hsortlen] at hy2 hn2
        omega
      · obtain ⟨i, -, hleaf⟩ := List.mem_map.mp hinl
        exact absurd hleaf (by simp)
    · intro nd i hnd hy hn
      exact absurd ⟨nd, hnd, by rw [hy, hn]⟩ hsp
    · intro _
      exact ⟨branches, List.insertionSort (· ≤ ·) (collectPdfs orig.nodes),
        List.perm_insertionSort _ _, List.sorted_insertionSort _ _, rfl, hlen,
        fun b hb => by
          obtain ⟨q, y, n, heq, -, -⟩ := hmem b hb
          exact ⟨q, y, n, heq⟩⟩

/-- C9 witness: the one-node tree with yes = no = Pdf 3 converts to the
single `Leaf 3`, and that output is index-closed. -/
theorem c9_convert_tree_index_closed_witness :
    (convertTree Unit (fun _ => some ()) ⟨[], 2, [⟨0, "q", .pdf 3, .pdf 3⟩]⟩
      = some ⟨[Voice.TreeNode.leaf 3], 2⟩) ∧
    ([Voice.TreeNode.leaf 3] : List (Voice.TreeNode Unit))
      = [Voice.TreeNode.leaf (intToUsize 3)] := by
  have hrun : convertTree Unit (fun _ => some ()) ⟨[], 2, [⟨0, "q", .pdf 3, .pdf 3⟩]⟩
      = some ⟨[Voice.TreeNode.leaf 3], 2⟩ := rfl
  refine ⟨hrun, ?_⟩
  exact (c9_convert_tree_index_closed Unit (fun _ => some ())
    ⟨[], 2, [⟨0, "q", .pdf 3, .pdf 3⟩]⟩ ⟨[Voice.TreeNode.leaf 3], 2⟩ hrun).2.1
    ⟨0, "q", .pdf 3, .pdf 3⟩ 3 rfl rfl rfl

end Hts
